import Mathlib

/-!
Verification of the Wordle-helper repository's pattern-encoding and
guess-ranking core (files dont_wordle_greedy_max.py, perfect_dont_wordle.py,
dont_wordle_solver.py), as a shallow embedding in Lean.

Words are modelled as lists of characters, feedback codes as natural numbers
(base-3 digits, least-significant position first), Python floats produced by
exact integer division as rationals, and the Python ZeroDivisionError raised
by an unguarded division as the `none` value of an `Option` result.
-/

namespace WordleHelper

/-! ## Feedback encoder: encode_pattern (dont_wordle_greedy_max.py lines 48-69)

The Python function keeps a `res` array of digits and a `taken` array of
already-consumed solution positions.  The first pass marks greens, the second
pass scans unconsumed solution positions left-to-right for yellows. -/

/-- First pass over the zipped guess/solution: digit 2 where the letters
agree, digit 0 elsewhere (the `res` array after the greens loop). -/
def firstRes (guess sol : List Char) : List Nat :=
  List.zipWith (fun g s => if g = s then 2 else 0) guess sol

/-- The `taken` array after the greens loop: a solution position is consumed
exactly when it produced a green. -/
def firstTaken (guess sol : List Char) : List Bool :=
  List.zipWith (fun g s => decide (g = s)) guess sol

/-- The inner loop of the second pass: scan the (solution letter, taken) state
left-to-right for the first unconsumed position holding letter `g`; consume it
on success, fail if none exists. -/
def findConsume (g : Char) : List (Char × Bool) → Option (List (Char × Bool))
  | [] => none
  | (s, t) :: rest =>
    if t = false ∧ g = s then some ((s, true) :: rest)
    else
      match findConsume g rest with
      | some rest2 => some ((s, t) :: rest2)
      | none => none

/-- The second (yellows) pass: walk the (digit, guess letter) pairs, skipping
positions already marked green, otherwise trying to consume a matching
solution position; returns the updated pairs and the final state. -/
def secondPass : List (Nat × Char) → List (Char × Bool) → List (Nat × Char) × List (Char × Bool)
  | [], st => ([], st)
  | (r, g) :: rest, st =>
    if r ≠ 0 then
      let p := secondPass rest st
      ((r, g) :: p.1, p.2)
    else
      match findConsume g st with
      | some st2 =>
        let p := secondPass rest st2
        ((1, g) :: p.1, p.2)
      | none =>
        let p := secondPass rest st
        ((0, g) :: p.1, p.2)

/-- The (digit, guess letter) pairs produced by both passes of
`encode_pattern`. -/
def encodePairs (guess sol : List Char) : List (Nat × Char) :=
  (secondPass ((firstRes guess sol).zip guess) (sol.zip (firstTaken guess sol))).1

/-- The per-position digits of `encode_pattern` (the `res` array after both
passes). -/
def encodeDigits (guess sol : List Char) : List Nat :=
  (encodePairs guess sol).map Prod.fst

/-- `encode_pattern` packs the digits base-3, least-significant position
first: `res[0] + 3*res[1] + 9*res[2] + 27*res[3] + 81*res[4]`. -/
def encode_pattern (guess sol : List Char) : Nat :=
  let res := encodeDigits guess sol
  res.getD 0 0 + 3 * res.getD 1 0 + 9 * res.getD 2 0 + 27 * res.getD 3 0 + 81 * res.getD 4 0

/-! ## Counting helpers used to state the no-over-counting property -/

/-- Number of (digit, guess letter) pairs carrying letter `c` and a non-zero
digit (i.e. marked green or yellow). -/
def markedCount (l : List (Nat × Char)) (c : Char) : Nat :=
  l.countP (fun p => p.1 != 0 && p.2 == c)

/-- Number of consumed solution positions holding letter `c`. -/
def consumedCount (st : List (Char × Bool)) (c : Char) : Nat :=
  st.countP (fun p => p.2 && p.1 == c)

/-- Number of still-unconsumed solution positions holding letter `c`. -/
def untakenCount (st : List (Char × Bool)) (c : Char) : Nat :=
  st.countP (fun p => !p.2 && p.1 == c)

/-! ## Counter-based feedback: get_wordle_feedback (perfect_dont_wordle.py
lines 44-64)

The Python function returns a five-character string over g/y/b, keeping a
`Counter` of the target's letters that is decremented for every green and
yellow mark.  Counter values are Python ints, modelled as `Int`. -/

/-- Decrement a letter-count table at letter `g` (`target_counts[g] -= 1`). -/
def decr (cnt : Char → Int) (g : Char) : Char → Int :=
  fun c => if c = g then cnt c - 1 else cnt c

/-- First pass of get_wordle_feedback over the zipped guess/target: mark
greens and decrement the matched letters' counts. -/
def firstPassCnt : List (Char × Char) → (Char → Int) → List Char × (Char → Int)
  | [], cnt => ([], cnt)
  | (g, t) :: rest, cnt =>
    if g = t then
      let p := firstPassCnt rest (decr cnt g)
      ('g' :: p.1, p.2)
    else
      let p := firstPassCnt rest cnt
      ('b' :: p.1, p.2)

/-- Second pass of get_wordle_feedback over the (feedback, guess letter)
pairs: turn a grey into a yellow while the guessed letter's count remains
positive, decrementing the count. -/
def secondPassCnt : List (Char × Char) → (Char → Int) → List Char × (Char → Int)
  | [], cnt => ([], cnt)
  | (f, g) :: rest, cnt =>
    if f = 'b' ∧ cnt g > 0 then
      let p := secondPassCnt rest (decr cnt g)
      ('y' :: p.1, p.2)
    else
      let p := secondPassCnt rest cnt
      (f :: p.1, p.2)

/-- `get_wordle_feedback guess target`: raises ValueError unless both words
have length 5, then runs the two Counter-based passes. -/
def get_wordle_feedback (guess target : List Char) : Except String (List Char) :=
  if guess.length ≠ 5 ∨ target.length ≠ 5 then .error "Words must be 5 letters"
  else
    let cnt0 : Char → Int := fun c => (target.count c : Int)
    let p1 := firstPassCnt (guess.zip target) cnt0
    let p2 := secondPassCnt (p1.1.zip guess) p1.2
    .ok p2.1

/-- The digit-to-character correspondence between the two encoders:
2 is green, 1 is yellow, 0 is grey. -/
def digitChar (d : Nat) : Char :=
  if d = 2 then 'g' else if d = 1 then 'y' else 'b'

end WordleHelper

namespace WordleHelper

/-! ## Row cache and scorers (dont_wordle_greedy_max.py)

`pattern_row g` memoizes `encode_pattern(WORDS[g], WORDS[s])` for every `s`;
memoization has no semantic effect, so the row is modelled as the function
below, parametrized by the ambient word list. -/

/-- `pattern_row`: feedback code of word `gIdx` against word `sIdx`. -/
def row (words : List (List Char)) (gIdx sIdx : Nat) : Nat :=
  encode_pattern (words.getD gIdx []) (words.getD sIdx [])

/-- One step of the Python dict update `buckets[code] = buckets.get(code,0)+1`:
update the entry in place when the key exists, append `(code, 1)` otherwise. -/
def dictIncr : List (Nat × Nat) → Nat → List (Nat × Nat)
  | [], code => [(code, 1)]
  | (k, v) :: rest, code =>
    if k = code then (k, v + 1) :: rest else (k, v) :: dictIncr rest code

/-- Dict lookup with default 0 (`buckets.get(code, 0)`). -/
def dlookup : List (Nat × Nat) → Nat → Nat
  | [], _ => 0
  | (k, v) :: rest, code => if k = code then v else dlookup rest code

/-- The bucket-size dict built by the loop of `exp_size_one`. -/
def bucketDict (words : List (List Char)) (gIdx : Nat) (C : List Nat) : List (Nat × Nat) :=
  C.foldl (fun d s => dictIncr d (row words gIdx s)) []

/-- `exp_size_one(guess_idx, C)`: expected remaining-pool size after playing
the guess once, `sum(v*v for v in buckets.values()) / len(C)`.  The division
is unguarded in the source; an empty pool raises ZeroDivisionError, modelled
as `none`. -/
def exp_size_one (words : List (List Char)) (gIdx : Nat) (C : List Nat) : Option ℚ :=
  let buckets := bucketDict words gIdx C
  let tot : Nat := (buckets.map (fun kv => kv.2 * kv.2)).sum
  if C.length = 0 then none else some ((tot : ℚ) / (C.length : ℚ))

/-- One step of `groups.setdefault(code, []).append(s_idx)`: append to the
entry in place when the key exists, append a new singleton group otherwise. -/
def groupAdd : List (Nat × List Nat) → Nat → Nat → List (Nat × List Nat)
  | [], code, s => [(code, [s])]
  | (k, l) :: rest, code, s =>
    if k = code then (k, l ++ [s]) :: rest else (k, l) :: groupAdd rest code s

/-- The code-to-subset groups built by the depth-2 branch of `score_depth`. -/
def groupDict (words : List (List Char)) (gIdx : Nat) (C : List Nat) : List (Nat × List Nat) :=
  C.foldl (fun d s => groupAdd d (row words gIdx s) s) []

/-- `random.sample` / `rng.sample` guarded by the Python truthiness test
`if sample_k and len(pool) > sample_k`; the sampling itself is an oracle. -/
def sampleIfNeeded (oracle : List Nat → Nat → List Nat) (sample_k : Option Nat)
    (pool : List Nat) : List Nat :=
  match sample_k with
  | none => pool
  | some k => if k ≠ 0 ∧ k < pool.length then oracle pool k else pool

/-- The body of one branch of the depth-2 loop of `score_depth`: skip empty
subsets, sample the second pool with the module-level random source `glob`,
take the best (maximum) depth-1 score of a second move over the subset and
weight it by the subset size.  `max()` over an empty sequence and the inner
unguarded divisions are modelled as `none`. -/
def branchScore (words : List (List Char)) (sample_k : Option Nat)
    (glob : List Nat → Nat → List Nat) (subset : List Nat) : Option ℚ :=
  if subset.length = 0 then some 0
  else
    let second_pool := sampleIfNeeded glob sample_k subset
    match second_pool.mapM (fun h => exp_size_one words h subset) with
    | none => none
    | some vals =>
      match vals.max? with
      | none => none
      | some best => some (best * (subset.length : ℚ))

/-- `score_depth(guess_idx, C, depth, sample_k)`: depth 1 delegates to
`exp_size_one`; any other depth runs the one-ply look-ahead whose bucket
sampling is driven by the module-level random source `glob` (not by the
injected rng).  The final division by `len(C)` is unguarded in the source;
an empty pool raises ZeroDivisionError, modelled as `none`. -/
def score_depth (words : List (List Char)) (gIdx : Nat) (C : List Nat) (depth : Nat)
    (sample_k : Option Nat) (glob : List Nat → Nat → List Nat) : Option ℚ :=
  if depth = 1 then exp_size_one words gIdx C
  else
    match (groupDict words gIdx C).mapM (fun kv => branchScore words sample_k glob kv.2) with
    | none => none
    | some scores =>
      if C.length = 0 then none else some (scores.sum / (C.length : ℚ))

/-- The ordering of the heap entries `(-score, word index)` pushed by
`recommend`: heapq pops tuples in ascending lexicographic order. -/
def heapLe (a b : ℚ × Nat) : Prop :=
  a.1 < b.1 ∨ (a.1 = b.1 ∧ a.2 ≤ b.2)

instance : DecidableRel heapLe := fun a b => by
  unfold heapLe
  exact inferInstance

/-- The sorted sequence of `(-score, word index)` pairs that heapq pops in
`recommend`: each scored pool entry is pushed into the priority queue, and
popping yields them in ascending `heapLe` order.  `inj` is the injected
seedable rng used for pool sampling; `glob` is the module-level random source
used inside `score_depth`. -/
def recommend_heap (words : List (List Char)) (C : List Nat) (depth : Nat)
    (sample_k : Option Nat) (inj glob : List Nat → Nat → List Nat) :
    Option (List (ℚ × Nat)) :=
  let pool := sampleIfNeeded inj sample_k C
  match pool.mapM (fun g => (score_depth words g C depth sample_k glob).map
      (fun sc => (-sc, g))) with
  | none => none
  | some entries => some (entries.foldl (fun h e => List.orderedInsert heapLe e h) [])

/-- `recommend(C, depth, sample_k, top_n, rng)`: evaluate every (optionally
sampled) guess of the pool, then pop the `min(top_n, len(heap))` best entries,
returning (word, score) pairs. -/
def recommend (words : List (List Char)) (C : List Nat) (depth : Nat)
    (sample_k : Option Nat) (top_n : Nat) (inj glob : List Nat → Nat → List Nat) :
    Option (List (List Char × ℚ)) :=
  match recommend_heap words C depth sample_k inj glob with
  | none => none
  | some heap =>
    some ((heap.take (min top_n heap.length)).map (fun p => (words.getD p.2 [], -p.1)))

/-- The phase selection performed inline in `main` (dont_wordle_greedy_max.py
lines 211-217): pool size decides depth, sampling bound and phase name. -/
def select_phase (size : Nat) : Nat × Option Nat × String :=
  if size > 1000 then (1, some 1000, "huge")
  else if size > 500 then (1, none, "mid")
  else (2, none, "end")

/-! ## Candidate filtering (dont_wordle_greedy_max.py lines 171-183) -/

/-- The dict-building semantics of `INDEX = { w : i for i, w in
enumerate(WORDS) }` followed by `INDEX.get(guess)`: the fold keeps the last
index of a duplicated word, `none` when the word is absent. -/
def indexFold (g : List Char) : Option Nat → List (Nat × List Char) → Option Nat
  | acc, [] => acc
  | acc, p :: rest => indexFold g (if p.2 = g then some p.1 else acc) rest

/-- `INDEX.get(guess)`. -/
def INDEX_get (words : List (List Char)) (g : List Char) : Option Nat :=
  indexFold g none words.enum

/-- The loop of `filter_candidates` over the (guess, pattern code) history:
raise ValueError on an unknown guess word, otherwise keep the pool indices
whose cached feedback code against the guess equals the observed code. -/
def applyPlayed (words : List (List Char)) :
    List (List Char × Nat) → List Nat → Except String (List Nat)
  | [], C => .ok C
  | (guess, code) :: rest, C =>
    match INDEX_get words guess with
    | none => .error "unknown word"
    | some gIdx => applyPlayed words rest (C.filter (fun s => row words gIdx s == code))

/-- `filter_candidates(constraints, banned_letters)`: start from all word
indices, apply every played constraint, then (when the banned string is
non-empty) drop words containing any upper-cased banned letter. -/
def filter_candidates (words : List (List Char)) (constraints : List (List Char × Nat))
    (banned : List Char) : Except String (List Nat) :=
  match applyPlayed words constraints (List.range words.length) with
  | .error e => .error e
  | .ok C =>
    .ok (if banned ≠ [] then
        C.filter (fun s =>
          !((banned.map Char.toUpper).any (fun letter => (words.getD s []).contains letter)))
      else C)

/-- The per-index acceptance test that `filter_candidates` implements, stated
as one flat predicate (used to express that the sequential filters amount to
a single filter of the full index range). -/
def keptByAll (words : List (List Char)) (constraints : List (List Char × Nat))
    (banned : List Char) (s : Nat) : Bool :=
  constraints.all (fun p =>
    match INDEX_get words p.1 with
    | some gIdx => row words gIdx s == p.2
    | none => false)
  && (banned.isEmpty
      || !((banned.map Char.toUpper).any (fun letter => (words.getD s []).contains letter)))

/-! ## The constraint taxonomy (section 3 of the specification), with the
per-word acceptance tests translated from the corresponding list
comprehensions of filter_candidates, satisfies_constraints,
filter_by_letter_counts and filter_by_min_letter_counts. -/

inductive Constraint where
  | played : List Char → Nat → Constraint
  | bannedLetters : List Char → Constraint
  | requiredLetters : List Char → Constraint
  | exactCounts : List (Char × Nat) → Constraint
  | minCounts : List (Char × Nat) → Constraint
  | positionIs : Nat → Char → Constraint
  | positionNot : Nat → Char → Constraint

/-- Whether one word passes one constraint; each arm is the predicate of the
corresponding source filter. -/
def satisfies : Constraint → List Char → Bool
  | .played guess code, w => encode_pattern guess w == code
  | .bannedLetters ls, w => !(ls.any (fun letter => w.contains letter))
  | .requiredLetters ls, w => ls.all (fun letter => w.contains letter)
  | .exactCounts cs, w => cs.all (fun p => w.count p.1 == p.2)
  | .minCounts cs, w => cs.all (fun p => p.2 ≤ w.count p.1)
  | .positionIs pos letter, w => w.getD pos ' ' == letter
  | .positionNot pos letter, w => !(w.getD pos ' ' == letter)

/-- Applying one constraint to a pool is a pure filter. -/
def applyConstraint (c : Constraint) (pool : List (List Char)) : List (List Char) :=
  pool.filter (satisfies c)

/-! ## The survivor-maximizing scorer (dont_wordle_solver.py lines 108-143)

`find_best_guesses` walks the pool; for a guess it counts the targets
containing none of the guess's letters, where letters that are green or
yellow in the current state are skipped (the state's green letter values and
yellow letter set are passed as lists). -/

/-- The `total_remaining` count that `find_best_guesses` computes for one
guess: the source splits into two loops depending on whether any green or
yellow constraints exist. -/
def solver_guess_score (greens yellows : List Char) (valid_words : List (List Char))
    (guess : List Char) : Nat :=
  if greens ≠ [] ∨ yellows ≠ [] then
    valid_words.countP (fun target =>
      (guess.filter (fun ch => !(greens.contains ch) && !(yellows.contains ch))).all
        (fun ch => !(target.contains ch)))
  else
    valid_words.countP (fun target => guess.all (fun ch => !(target.contains ch)))

/-- The scored, descending-sorted, truncated list returned by
`find_best_guesses` (Python's stable sort by score, reversed). -/
def find_best_guesses (greens yellows : List Char) (valid_words : List (List Char))
    (num_top : Nat) : List (List Char × Nat) :=
  ((valid_words.map (fun g => (g, solver_guess_score greens yellows valid_words g))).insertionSort
      (fun a b => b.2 ≤ a.2)).take num_top

end WordleHelper

namespace WordleHelper

/-! ## Lemmas about the two-pass encoder -/

theorem encodeDigits_self (g : List Char) (h : g.length = 5) :
    encodeDigits g g = [2, 2, 2, 2, 2] := by
  rcases g with _ | ⟨a, _ | ⟨b, _ | ⟨c, _ | ⟨d, _ | ⟨e, _ | ⟨f, t⟩⟩⟩⟩⟩⟩ <;>
    simp_all [encodeDigits, encodePairs, firstRes, firstTaken, secondPass]

theorem firstPass_marked_eq_consumed (guess sol : List Char) (c : Char) :
    markedCount ((firstRes guess sol).zip guess) c
      = consumedCount (sol.zip (firstTaken guess sol)) c := by
  induction guess generalizing sol with
  | nil => simp [firstRes, firstTaken, markedCount, consumedCount]
  | cons a g ih =>
    cases sol with
    | nil => simp [firstRes, firstTaken, markedCount, consumedCount]
    | cons b s =>
      simp only [firstRes, firstTaken, List.zipWith_cons_cons, List.zip_cons_cons,
        markedCount, consumedCount, List.countP_cons] at *
      by_cases hab : a = b
      · subst hab
        simp [ih]
      · simp [hab, ih]

theorem findConsume_some (g : Char) (st st' : List (Char × Bool))
    (h : findConsume g st = some st') :
    st'.map Prod.fst = st.map Prod.fst
    ∧ (∀ c, consumedCount st' c = consumedCount st c + if g = c then 1 else 0)
    ∧ (∀ c, untakenCount st c = untakenCount st' c + if g = c then 1 else 0) := by
  induction st generalizing st' with
  | nil => simp [findConsume] at h
  | cons p rest ih =>
    obtain ⟨s, t⟩ := p
    by_cases hc : t = false ∧ g = s
    · rw [findConsume, if_pos hc] at h
      obtain ⟨ht, hg⟩ := hc
      subst ht
      subst hg
      cases h
      refine ⟨by simp, fun c => ?_, fun c => ?_⟩ <;>
        · simp only [consumedCount, untakenCount, List.countP_cons]
          by_cases hgc : g = c <;> simp [hgc]
    · rw [findConsume, if_neg hc] at h
      cases hrec : findConsume g rest with
      | none =>
        rw [hrec] at h
        simp at h
      | some rest2 =>
        rw [hrec] at h
        cases h
        obtain ⟨h1, h2, h3⟩ := ih rest2 hrec
        refine ⟨by simp [h1], fun c => ?_, fun c => ?_⟩
        · simp only [consumedCount, List.countP_cons] at *
          have := h2 c
          omega
        · simp only [untakenCount, List.countP_cons] at *
          have := h3 c
          omega

theorem secondPass_spec (l : List (Nat × Char)) (st : List (Char × Bool)) :
    (secondPass l st).1.map Prod.snd = l.map Prod.snd
    ∧ (secondPass l st).2.map Prod.fst = st.map Prod.fst
    ∧ ∀ c, markedCount (secondPass l st).1 c + consumedCount st c
        = markedCount l c + consumedCount (secondPass l st).2 c := by
  induction l generalizing st with
  | nil => simp [secondPass]
  | cons p rest ih =>
    obtain ⟨r, g⟩ := p
    by_cases hr : r ≠ 0
    · simp only [secondPass, if_pos hr]
      obtain ⟨h1, h2, h3⟩ := ih st
      refine ⟨by simp [h1], by simp [h2], fun c => ?_⟩
      simp only [markedCount, List.countP_cons] at *
      have := h3 c
      omega
    · simp only [secondPass, if_neg hr]
      push_neg at hr
      subst hr
      cases hfc : findConsume g st with
      | some st2 =>
        obtain ⟨h1, h2, h3⟩ := ih st2
        obtain ⟨f1, f2, _⟩ := findConsume_some g st st2 hfc
        refine ⟨by simp [h1], by simp [h2, f1], fun c => ?_⟩
        simp only [markedCount, List.countP_cons] at *
        have ha := h3 c
        have hb := f2 c
        by_cases hgc : g = c <;> simp [hgc] at * <;> omega
      | none =>
        obtain ⟨h1, h2, h3⟩ := ih st
        refine ⟨by simp [h1], by simp [h2], fun c => ?_⟩
        simp only [markedCount, List.countP_cons] at *
        have := h3 c
        omega

theorem exists_five {α : Type} (l : List α) (h : l.length = 5) :
    ∃ a b c d e, l = [a, b, c, d, e] := by
  rcases l with _ | ⟨a, _ | ⟨b, _ | ⟨c, _ | ⟨d, _ | ⟨e, _ | ⟨f, t⟩⟩⟩⟩⟩⟩ <;> simp at h
  exact ⟨a, b, c, d, e, rfl⟩

theorem firstRes_range (guess sol : List Char) :
    ∀ x ∈ firstRes guess sol, x = 0 ∨ x = 2 := by
  induction guess generalizing sol with
  | nil => simp [firstRes]
  | cons a g ih =>
    cases sol with
    | nil => simp [firstRes]
    | cons b s =>
      intro x hx
      simp only [firstRes, List.zipWith_cons_cons, List.mem_cons] at hx
      rcases hx with h | h
      · by_cases hab : a = b <;> simp [hab] at h <;> omega
      · exact ih s x h

theorem secondPass_fst_range (l : List (Nat × Char)) (st : List (Char × Bool))
    (h : ∀ p ∈ l, p.1 = 0 ∨ p.1 = 1 ∨ p.1 = 2) :
    ∀ p ∈ (secondPass l st).1, p.1 = 0 ∨ p.1 = 1 ∨ p.1 = 2 := by
  induction l generalizing st with
  | nil => simp [secondPass]
  | cons p rest ih =>
    obtain ⟨r, g⟩ := p
    have hrest : ∀ p ∈ rest, p.1 = 0 ∨ p.1 = 1 ∨ p.1 = 2 :=
      fun q hq => h q (List.mem_cons_of_mem _ hq)
    by_cases hr : r ≠ 0
    · simp only [secondPass, if_pos hr]
      intro q hq
      rcases List.mem_cons.mp hq with hq | hq
      · subst hq
        exact h (r, g) (List.mem_cons_self _ _)
      · exact ih st hrest q hq
    · simp only [secondPass, if_neg hr]
      cases hfc : findConsume g st with
      | some st2 =>
        intro q hq
        rcases List.mem_cons.mp hq with hq | hq
        · subst hq
          simp
        · exact ih st2 hrest q hq
      | none =>
        intro q hq
        rcases List.mem_cons.mp hq with hq | hq
        · subst hq
          simp
        · exact ih st hrest q hq

theorem encodeDigits_range (guess sol : List Char) :
    ∀ d ∈ encodeDigits guess sol, d = 0 ∨ d = 1 ∨ d = 2 := by
  intro d hd
  simp only [encodeDigits, List.mem_map] at hd
  obtain ⟨p, hp, rfl⟩ := hd
  refine secondPass_fst_range _ _ ?_ p hp
  intro q hq
  have hq1 : q.1 ∈ firstRes guess sol := by
    have : q.1 ∈ ((firstRes guess sol).zip guess).map Prod.fst :=
      List.mem_map_of_mem Prod.fst hq
    rw [List.map_fst_zip] at this
    · exact this
    · rw [firstRes, List.length_zipWith]
      omega
  rcases firstRes_range guess sol q.1 hq1 with h | h <;> omega

theorem zip_fst_snd {α β : Type} : ∀ l : List (α × β), (l.map Prod.fst).zip (l.map Prod.snd) = l
  | [] => rfl
  | p :: rest => by simp [zip_fst_snd rest]

theorem findConsume_none (g : Char) (st : List (Char × Bool)) :
    findConsume g st = none ↔ untakenCount st g = 0 := by
  induction st with
  | nil => simp [findConsume, untakenCount]
  | cons p rest ih =>
    obtain ⟨s, t⟩ := p
    rw [untakenCount, List.countP_cons]
    rw [untakenCount] at ih
    by_cases hc : t = false ∧ g = s
    · rw [findConsume, if_pos hc]
      obtain ⟨ht, hg⟩ := hc
      subst ht
      subst hg
      simp
    · rw [findConsume, if_neg hc]
      have hhead : (!t && s == g) = false := by
        cases t
        · have hgs : g ≠ s := fun hgg => hc ⟨rfl, hgg⟩
          simp only [Bool.not_false, Bool.true_and, beq_eq_false_iff_ne]
          exact fun hsg => hgs hsg.symm
        · simp
      rw [hhead]
      simp only [Bool.false_eq_true, if_false, Nat.add_zero]
      cases hrec : findConsume g rest with
      | none => simpa using ih.mp hrec
      | some rest2 =>
        have hne : List.countP (fun p => !p.2 && p.1 == g) rest ≠ 0 := by
          intro hz
          rw [ih.mpr hz] at hrec
          exact Option.noConfusion hrec
        simpa using hne

theorem firstPassCnt_spec (l : List (Char × Char)) (cnt : Char → Int) :
    (firstPassCnt l cnt).1 = l.map (fun p => if p.1 = p.2 then 'g' else 'b')
    ∧ ∀ c, (firstPassCnt l cnt).2 c
        = cnt c - (l.countP (fun p => p.1 == p.2 && p.1 == c) : Int) := by
  induction l generalizing cnt with
  | nil => simp [firstPassCnt]
  | cons p rest ih =>
    obtain ⟨g, t⟩ := p
    by_cases hgt : g = t
    · subst hgt
      simp only [firstPassCnt, eq_self_iff_true, ite_true]
      obtain ⟨ihl, ihc⟩ := ih (decr cnt g)
      refine ⟨by simp [ihl], fun c => ?_⟩
      rw [ihc c]
      simp only [decr, List.countP_cons]
      by_cases hgc : g = c
      · subst hgc
        simp only [beq_self_eq_true, Bool.and_self, if_true, if_pos rfl]
        push_cast
        ring
      · have hcg : ¬c = g := fun h => hgc h.symm
        simp [hgc, hcg, beq_iff_eq]
    · simp only [firstPassCnt, if_neg hgt]
      obtain ⟨ihl, ihc⟩ := ih cnt
      refine ⟨by simp [hgt, ihl], fun c => ?_⟩
      rw [ihc c]
      have hh : ((g, t).1 == (g, t).2 && (g, t).1 == c) = false := by
        simp [beq_iff_eq, hgt]
      simp [List.countP_cons, hh]

theorem untaken_init (guess sol : List Char) (c : Char) :
    untakenCount (sol.zip (firstTaken guess sol)) c
      + (guess.zip sol).countP (fun p => p.1 == p.2 && p.1 == c)
      = (sol.take guess.length).count c := by
  induction guess generalizing sol with
  | nil => simp [firstTaken, untakenCount]
  | cons a g ih =>
    cases sol with
    | nil => simp [firstTaken, untakenCount]
    | cons b s =>
      have hih := ih s
      simp only [firstTaken, List.zipWith_cons_cons, List.zip_cons_cons, untakenCount,
        List.countP_cons, List.length_cons, List.take_succ_cons, List.count_cons] at hih ⊢
      by_cases hab : a = b
      · subst hab
        by_cases hac : a = c
        · subst hac
          simp [beq_iff_eq]
          omega
        · have hca : ¬c = a := fun h => hac h.symm
          simp [beq_iff_eq, hac, hca]
          omega
      · by_cases hbc : b = c
        · subst hbc
          simp [beq_iff_eq, hab]
          omega
        · have hcb : ¬c = b := fun h => hbc h.symm
          simp [beq_iff_eq, hab, hbc, hcb]
          omega

theorem secondPass_parallel (l : List (Nat × Char)) (st : List (Char × Bool)) (cnt : Char → Int)
    (hrange : ∀ p ∈ l, p.1 = 0 ∨ p.1 = 1 ∨ p.1 = 2)
    (hinv : ∀ c, cnt c = (untakenCount st c : Int)) :
    (secondPassCnt (l.map (fun p => (digitChar p.1, p.2))) cnt).1
      = (secondPass l st).1.map (fun p => digitChar p.1) := by
  induction l generalizing st cnt with
  | nil => simp [secondPass, secondPassCnt]
  | cons p rest ih =>
    obtain ⟨r, g⟩ := p
    have hrest : ∀ p ∈ rest, p.1 = 0 ∨ p.1 = 1 ∨ p.1 = 2 :=
      fun q hq => hrange q (List.mem_cons_of_mem _ hq)
    by_cases hr : r ≠ 0
    · have hchar : digitChar r ≠ 'b' := by
        rcases hrange (r, g) (List.mem_cons_self _ _) with h | h | h
        · exact absurd h hr
        · have h1 : r = 1 := h
          subst h1
          decide
        · have h2 : r = 2 := h
          subst h2
          decide
      simp only [List.map_cons]
      rw [secondPassCnt, if_neg (fun hcon => hchar hcon.1)]
      rw [secondPass, if_pos hr]
      simp [ih st cnt hrest hinv]
    · push_neg at hr
      subst hr
      simp only [List.map_cons]
      have hb : digitChar 0 = 'b' := rfl
      cases hfc : findConsume g st with
      | some st2 =>
        have hpos : 0 < untakenCount st g := by
          have := (findConsume_some g st st2 hfc).2.2 g
          simp at this
          omega
        rw [secondPassCnt, if_pos ⟨hb, by rw [hinv g]; exact_mod_cast hpos⟩]
        rw [secondPass, if_neg (by simp), hfc]
        have hinv2 : ∀ c, decr cnt g c = (untakenCount st2 c : Int) := by
          intro c
          have hcc := (findConsume_some g st st2 hfc).2.2 c
          by_cases hgc : c = g
          · subst hgc
            simp at hcc
            simp [decr]
            rw [hinv c]
            omega
          · have hgc2 : ¬g = c := fun h => hgc h.symm
            rw [if_neg hgc2] at hcc
            simp only [decr, if_neg hgc]
            rw [hinv c]
            omega
        have h1 : digitChar 1 = 'y' := by decide
        simp [ih st2 (decr cnt g) hrest hinv2, h1]
      | none =>
        have hzero : untakenCount st g = 0 := (findConsume_none g st).mp hfc
        rw [secondPassCnt, if_neg (by rw [hinv g, hzero]; simp)]
        rw [secondPass, if_neg (by simp), hfc]
        simp [ih st cnt hrest hinv]

theorem encodePairs_snd (guess sol : List Char) (h : guess.length = sol.length) :
    (encodePairs guess sol).map Prod.snd = guess := by
  rw [encodePairs, (secondPass_spec _ _).1, List.map_snd_zip]
  rw [firstRes, List.length_zipWith]
  omega

theorem marked_le_count (guess sol : List Char) (h : guess.length = sol.length) (c : Char) :
    markedCount (encodePairs guess sol) c ≤ sol.count c := by
  have hspec := (secondPass_spec ((firstRes guess sol).zip guess)
    (sol.zip (firstTaken guess sol))).2
  obtain ⟨hfst, hcnt⟩ := hspec
  have hinit := firstPass_marked_eq_consumed guess sol c
  have hmain := hcnt c
  rw [encodePairs]
  have hout : markedCount (secondPass ((firstRes guess sol).zip guess)
      (sol.zip (firstTaken guess sol))).1 c
      = consumedCount (secondPass ((firstRes guess sol).zip guess)
        (sol.zip (firstTaken guess sol))).2 c := by
    omega
  rw [hout]
  set st' := (secondPass ((firstRes guess sol).zip guess)
    (sol.zip (firstTaken guess sol))).2 with hst'
  have hle : consumedCount st' c ≤ st'.countP (fun p => p.1 == c) := by
    refine List.countP_mono_left fun p _ hp => ?_
    simp only [Bool.and_eq_true] at hp
    exact hp.2
  refine hle.trans ?_
  have hmapeq : st'.map Prod.fst = sol := by
    rw [hfst, List.map_fst_zip]
    rw [firstTaken, List.length_zipWith]
    omega
  have : st'.countP (fun p => p.1 == c) = (st'.map Prod.fst).countP (fun x => x == c) := by
    rw [List.countP_map]
    rfl
  rw [this, hmapeq, List.count]

end WordleHelper

/-- C1: for 5-letter guess and target words and any letter, the number of
guess positions that the two-pass encoder marks 2 (match) or 1
(present-elsewhere) for that letter never exceeds the letter's number of
occurrences in the target. -/
theorem encoder_no_over_count (guess sol : List Char)
    (h1 : guess.length = 5) (h2 : sol.length = 5) (c : Char) :
    ((WordleHelper.encodeDigits guess sol).zip guess).countP
        (fun p => (p.1 == 2 || p.1 == 1) && p.2 == c)
      ≤ sol.count c := by
  have hlen : guess.length = sol.length := by omega
  have hzip : (WordleHelper.encodeDigits guess sol).zip guess
      = WordleHelper.encodePairs guess sol := by
    calc (WordleHelper.encodeDigits guess sol).zip guess
        = ((WordleHelper.encodePairs guess sol).map Prod.fst).zip
            ((WordleHelper.encodePairs guess sol).map Prod.snd) := by
          rw [WordleHelper.encodeDigits, WordleHelper.encodePairs_snd guess sol hlen]
      _ = WordleHelper.encodePairs guess sol := WordleHelper.zip_fst_snd _
  rw [hzip]
  have hcong : (WordleHelper.encodePairs guess sol).countP
      (fun p => (p.1 == 2 || p.1 == 1) && p.2 == c)
      = WordleHelper.markedCount (WordleHelper.encodePairs guess sol) c := by
    rw [WordleHelper.markedCount]
    refine List.countP_congr fun p hp => ?_
    have hd : p.1 = 0 ∨ p.1 = 1 ∨ p.1 = 2 := by
      refine WordleHelper.encodeDigits_range guess sol p.1 ?_
      exact List.mem_map_of_mem Prod.fst hp
    rcases hd with h | h | h <;> simp [h]
  rw [hcong]
  exact WordleHelper.marked_le_count guess sol hlen c

/-- Witness for C1 at the spec's example guess "SPEED" against target
"ERASE", letter 'E'. -/
theorem encoder_no_over_count_witness :
    ((WordleHelper.encodeDigits ['S', 'P', 'E', 'E', 'D'] ['E', 'R', 'A', 'S', 'E']).zip
        ['S', 'P', 'E', 'E', 'D']).countP
        (fun p => (p.1 == 2 || p.1 == 1) && p.2 == 'E')
      ≤ ['E', 'R', 'A', 'S', 'E'].count 'E' :=
  encoder_no_over_count ['S', 'P', 'E', 'E', 'D'] ['E', 'R', 'A', 'S', 'E']
    (by decide) (by decide) 'E'

/-- C2: for every 5-letter word `g`, `encode_pattern g g` is the all-match
code, every base-3 digit 2, i.e. the integer 242. -/
theorem encode_pattern_self_all_match (g : List Char) (h : g.length = 5) :
    WordleHelper.encode_pattern g g = 242 := by
  simp [WordleHelper.encode_pattern, WordleHelper.encodeDigits_self g h]

/-- Witness for C2 at the concrete word "CRANE". -/
theorem encode_pattern_self_all_match_witness :
    WordleHelper.encode_pattern ['C', 'R', 'A', 'N', 'E'] ['C', 'R', 'A', 'N', 'E'] = 242 :=
  encode_pattern_self_all_match ['C', 'R', 'A', 'N', 'E'] (by decide)

namespace WordleHelper

/-! ## Equivalence of the two feedback encoders -/

theorem digitChar_firstRes (guess sol : List Char) :
    (firstRes guess sol).map digitChar
      = (guess.zip sol).map (fun p => if p.1 = p.2 then 'g' else 'b') := by
  induction guess generalizing sol with
  | nil => simp [firstRes]
  | cons a g ih =>
    cases sol with
    | nil => simp [firstRes]
    | cons b s =>
      simp only [firstRes, List.zipWith_cons_cons, List.zip_cons_cons, List.map_cons]
      refine congrArg₂ _ ?_ (ih s)
      by_cases hab : a = b <;> simp [hab, digitChar]

theorem zip_map_left_pair {α β γ : Type} (f : α → γ) :
    ∀ (l : List α) (l2 : List β),
      (l.map f).zip l2 = (l.zip l2).map (fun p => (f p.1, p.2))
  | [], _ => rfl
  | _ :: _, [] => rfl
  | a :: l, b :: l2 => by simp [zip_map_left_pair f l l2]

theorem initPairs_range (guess sol : List Char) :
    ∀ p ∈ (firstRes guess sol).zip guess, p.1 = 0 ∨ p.1 = 1 ∨ p.1 = 2 := by
  intro q hq
  have hq1 : q.1 ∈ firstRes guess sol := by
    have hm : q.1 ∈ ((firstRes guess sol).zip guess).map Prod.fst :=
      List.mem_map_of_mem Prod.fst hq
    rw [List.map_fst_zip] at hm
    · exact hm
    · rw [firstRes, List.length_zipWith]
      omega
  rcases firstRes_range guess sol q.1 hq1 with h | h <;> omega

theorem cnt_after_first (guess sol : List Char) (h : guess.length = sol.length) (c : Char) :
    (firstPassCnt (guess.zip sol) (fun x => (sol.count x : Int))).2 c
      = (untakenCount (sol.zip (firstTaken guess sol)) c : Int) := by
  rw [(firstPassCnt_spec (guess.zip sol) _).2 c]
  have hu := untaken_init guess sol c
  rw [h, List.take_length] at hu
  omega

theorem gwf_eq_encode (guess target : List Char)
    (h1 : guess.length = 5) (h2 : target.length = 5) :
    get_wordle_feedback guess target
      = Except.ok ((encodeDigits guess target).map digitChar) := by
  have hlen : guess.length = target.length := by omega
  have key : (secondPassCnt
        ((firstPassCnt (guess.zip target) (fun x => (target.count x : Int))).1.zip guess)
        (firstPassCnt (guess.zip target) (fun x => (target.count x : Int))).2).1
      = (encodeDigits guess target).map digitChar := by
    have hfb1 : (firstPassCnt (guess.zip target) (fun x => (target.count x : Int))).1
        = (firstRes guess target).map digitChar := by
      rw [(firstPassCnt_spec (guess.zip target) _).1, digitChar_firstRes]
    rw [hfb1, zip_map_left_pair]
    rw [secondPass_parallel ((firstRes guess target).zip guess)
      (target.zip (firstTaken guess target))
      (firstPassCnt (guess.zip target) (fun x => (target.count x : Int))).2
      (initPairs_range guess target)
      (fun c => cnt_after_first guess target hlen c)]
    rw [encodeDigits, encodePairs, List.map_map]
    rfl
  rw [get_wordle_feedback, if_neg (by omega)]
  exact congrArg Except.ok key

theorem encodeDigits_length (guess sol : List Char) :
    (encodeDigits guess sol).length = min (min guess.length sol.length) guess.length := by
  have h := congrArg List.length
    (secondPass_spec ((firstRes guess sol).zip guess) (sol.zip (firstTaken guess sol))).1
  simp only [List.length_map] at h
  rw [encodeDigits, List.length_map, encodePairs, h]
  simp [firstRes, List.length_zip, List.length_zipWith]

theorem digit_extract (d0 d1 d2 d3 d4 : Nat) (hb0 : d0 < 3) (hb1 : d1 < 3) (hb2 : d2 < 3)
    (hb3 : d3 < 3) (hb4 : d4 < 3) (i : Nat) (hi : i < 5) :
    (d0 + 3 * d1 + 9 * d2 + 27 * d3 + 81 * d4) / 3 ^ i % 3 = [d0, d1, d2, d3, d4].getD i 0 := by
  interval_cases i <;> simp <;> omega

theorem digitChar_iff (d : Nat) (hd : d = 0 ∨ d = 1 ∨ d = 2) :
    (d = 2 ↔ digitChar d = 'g') ∧ (d = 1 ↔ digitChar d = 'y') ∧ (d = 0 ↔ digitChar d = 'b') := by
  rcases hd with h | h | h <;> subst h <;> exact ⟨by decide, by decide, by decide⟩

end WordleHelper

/-- C10: the two feedback implementations agree: for length-5 words, the i-th
base-3 digit of `encode_pattern guess target` is 2, 1 or 0 exactly when the
i-th character of `get_wordle_feedback guess target` is g, y or b. -/
theorem encoders_agree (guess target : List Char)
    (h1 : guess.length = 5) (h2 : target.length = 5) :
    ∃ fb, WordleHelper.get_wordle_feedback guess target = Except.ok fb ∧
      ∀ i, i < 5 →
        (WordleHelper.encode_pattern guess target / 3 ^ i % 3 = 2 ↔ fb.getD i ' ' = 'g')
        ∧ (WordleHelper.encode_pattern guess target / 3 ^ i % 3 = 1 ↔ fb.getD i ' ' = 'y')
        ∧ (WordleHelper.encode_pattern guess target / 3 ^ i % 3 = 0 ↔ fb.getD i ' ' = 'b') := by
  refine ⟨(WordleHelper.encodeDigits guess target).map WordleHelper.digitChar,
    WordleHelper.gwf_eq_encode guess target h1 h2, ?_⟩
  have hlen : (WordleHelper.encodeDigits guess target).length = 5 := by
    rw [WordleHelper.encodeDigits_length, h1, h2]
    simp
  obtain ⟨d0, d1, d2, d3, d4, hds⟩ := WordleHelper.exists_five _ hlen
  have hr0 : d0 = 0 ∨ d0 = 1 ∨ d0 = 2 :=
    WordleHelper.encodeDigits_range guess target d0 (by rw [hds]; simp)
  have hr1 : d1 = 0 ∨ d1 = 1 ∨ d1 = 2 :=
    WordleHelper.encodeDigits_range guess target d1 (by rw [hds]; simp)
  have hr2 : d2 = 0 ∨ d2 = 1 ∨ d2 = 2 :=
    WordleHelper.encodeDigits_range guess target d2 (by rw [hds]; simp)
  have hr3 : d3 = 0 ∨ d3 = 1 ∨ d3 = 2 :=
    WordleHelper.encodeDigits_range guess target d3 (by rw [hds]; simp)
  have hr4 : d4 = 0 ∨ d4 = 1 ∨ d4 = 2 :=
    WordleHelper.encodeDigits_range guess target d4 (by rw [hds]; simp)
  have hval : WordleHelper.encode_pattern guess target
      = d0 + 3 * d1 + 9 * d2 + 27 * d3 + 81 * d4 := by
    simp [WordleHelper.encode_pattern, hds]
  intro i hi
  have hmod := WordleHelper.digit_extract d0 d1 d2 d3 d4
    (by omega) (by omega) (by omega) (by omega) (by omega) i hi
  rw [hval, hmod, hds]
  simp only [List.map_cons, List.map_nil]
  interval_cases i
  · simpa using WordleHelper.digitChar_iff d0 hr0
  · simpa using WordleHelper.digitChar_iff d1 hr1
  · simpa using WordleHelper.digitChar_iff d2 hr2
  · simpa using WordleHelper.digitChar_iff d3 hr3
  · simpa using WordleHelper.digitChar_iff d4 hr4

/-- Witness for C10 at guess "SPEED" against target "ERASE". -/
theorem encoders_agree_witness :
    ∃ fb, WordleHelper.get_wordle_feedback ['S', 'P', 'E', 'E', 'D'] ['E', 'R', 'A', 'S', 'E']
        = Except.ok fb ∧
      ∀ i, i < 5 →
        (WordleHelper.encode_pattern ['S', 'P', 'E', 'E', 'D'] ['E', 'R', 'A', 'S', 'E']
            / 3 ^ i % 3 = 2 ↔ fb.getD i ' ' = 'g')
        ∧ (WordleHelper.encode_pattern ['S', 'P', 'E', 'E', 'D'] ['E', 'R', 'A', 'S', 'E']
            / 3 ^ i % 3 = 1 ↔ fb.getD i ' ' = 'y')
        ∧ (WordleHelper.encode_pattern ['S', 'P', 'E', 'E', 'D'] ['E', 'R', 'A', 'S', 'E']
            / 3 ^ i % 3 = 0 ↔ fb.getD i ' ' = 'b') :=
  encoders_agree ['S', 'P', 'E', 'E', 'D'] ['E', 'R', 'A', 'S', 'E'] (by decide) (by decide)

/-- C5: the phase selector is a pure function of pool size: above 1000 it
picks depth 1 with a sample of 1000, between 501 and 1000 depth 1 over the
full pool, and at or below 500 depth 2 over the full pool. -/
theorem select_phase_spec (size : Nat) :
    (1000 < size → WordleHelper.select_phase size = (1, some 1000, "huge"))
    ∧ (500 < size → size ≤ 1000 → WordleHelper.select_phase size = (1, none, "mid"))
    ∧ (size ≤ 500 → WordleHelper.select_phase size = (2, none, "end")) := by
  refine ⟨fun h => ?_, fun h h2 => ?_, fun h => ?_⟩
  · rw [WordleHelper.select_phase, if_pos (by omega : size > 1000)]
  · rw [WordleHelper.select_phase, if_neg (by omega : ¬size > 1000),
      if_pos (by omega : size > 500)]
  · rw [WordleHelper.select_phase, if_neg (by omega : ¬size > 1000),
      if_neg (by omega : ¬size > 500)]

/-- Witness for C5 at the four boundary pool sizes 1001, 1000, 501, 500. -/
theorem select_phase_spec_witness :
    WordleHelper.select_phase 1001 = (1, some 1000, "huge")
    ∧ WordleHelper.select_phase 1000 = (1, none, "mid")
    ∧ WordleHelper.select_phase 501 = (1, none, "mid")
    ∧ WordleHelper.select_phase 500 = (2, none, "end") :=
  ⟨(select_phase_spec 1001).1 (by decide),
   (select_phase_spec 1000).2.1 (by decide) (by decide),
   (select_phase_spec 501).2.1 (by decide) (by decide),
   (select_phase_spec 500).2.2 (by decide)⟩

/-- C4 (failing input): scoring an empty candidate pool is NOT a guarded,
defined error state in the code: both `exp_size_one` and the depth-2 branch
of `score_depth` reach the unguarded division `tot / len(C)`, which on an
empty pool raises ZeroDivisionError (modelled as `none`). -/
theorem empty_pool_division_unguarded (words : List (List Char)) (gIdx : Nat)
    (glob : List Nat → Nat → List Nat) :
    WordleHelper.exp_size_one words gIdx [] = none
    ∧ WordleHelper.score_depth words gIdx [] 2 none glob = none :=
  ⟨rfl, rfl⟩

/-- C3 counterexample: with the green letter s recorded in the state, the
score `find_best_guesses` assigns to guess "saaaa" over the pool
containing "saaaa", "sbbbb" is 1, yet the number of pool words sharing
no letters with the guess is 0 (both share s). -/
theorem solver_score_counterexample :
    WordleHelper.solver_guess_score ['s'] []
        [['s', 'a', 'a', 'a', 'a'], ['s', 'b', 'b', 'b', 'b']] ['s', 'a', 'a', 'a', 'a'] = 1
    ∧ ([['s', 'a', 'a', 'a', 'a'], ['s', 'b', 'b', 'b', 'b']].filter
        (fun t => decide (∀ ch ∈ ['s', 'a', 'a', 'a', 'a'], ch ∉ t))).length = 0 := by
  constructor
  · decide
  · decide

/-- C3 (amended): the survivor-maximizing score that `find_best_guesses`
assigns to a guess equals the number of pool words containing none of the
guess's letters that lie outside the state's green and yellow letter sets;
in particular, when the state records no green and no yellow letters it is
exactly the number of pool words sharing no letters with the guess. -/
theorem solver_score_spec (greens yellows : List Char) (pool : List (List Char))
    (guess : List Char) (n : Nat) :
    WordleHelper.solver_guess_score greens yellows pool guess
      = (pool.filter (fun t =>
          decide (∀ ch ∈ guess, ch ∉ greens → ch ∉ yellows → ch ∉ t))).length
    ∧ ∀ p ∈ WordleHelper.find_best_guesses greens yellows pool n,
        p.2 = WordleHelper.solver_guess_score greens yellows pool p.1 := by
  constructor
  · rw [WordleHelper.solver_guess_score]
    split_ifs with hcase
    · rw [List.countP_eq_length_filter]
      refine congrArg List.length (List.filter_congr fun t ht => ?_)
      refine Bool.coe_iff_coe.mp ?_
      simp [List.all_eq_true, List.mem_filter]
      constructor
      · intro h ch hch hg hy
        rcases h ch hch with h1 | h1 | h1
        · exact absurd h1 hg
        · exact absurd h1 hy
        · exact h1
      · intro h ch hch
        by_cases hg : ch ∈ greens
        · exact Or.inl hg
        · by_cases hy : ch ∈ yellows
          · exact Or.inr (Or.inl hy)
          · exact Or.inr (Or.inr (h ch hch hg hy))
    · push_neg at hcase
      obtain ⟨hg, hy⟩ := hcase
      subst hg
      subst hy
      rw [List.countP_eq_length_filter]
      refine congrArg List.length (List.filter_congr fun t ht => ?_)
      refine Bool.coe_iff_coe.mp ?_
      simp [List.all_eq_true]
  · intro p hp
    have hp2 : p ∈ (pool.map (fun g =>
        (g, WordleHelper.solver_guess_score greens yellows pool g))).insertionSort
        (fun a b => b.2 ≤ a.2) := by
      rw [WordleHelper.find_best_guesses] at hp
      exact List.take_subset _ _ hp
    have hp3 : p ∈ pool.map (fun g =>
        (g, WordleHelper.solver_guess_score greens yellows pool g)) :=
      (List.perm_insertionSort _ _).subset hp2
    obtain ⟨g, _, hpg⟩ := List.mem_map.mp hp3
    rw [← hpg]

/-- C7: candidate filtering is order-independent: for any two constraints
from the taxonomy (played guess/code pair, banned letters, required letters,
exact counts, minimum counts, position must-be/must-not-be) and any pool,
applying the filters in either order yields the same final pool. -/
theorem filter_order_independent (A B : WordleHelper.Constraint) (pool : List (List Char)) :
    WordleHelper.applyConstraint B (WordleHelper.applyConstraint A pool)
      = WordleHelper.applyConstraint A (WordleHelper.applyConstraint B pool) := by
  simp only [WordleHelper.applyConstraint, List.filter_filter]
  exact List.filter_congr fun w hw => Bool.and_comm _ _

namespace WordleHelper

/-! ## Lemmas about INDEX lookup and filter_candidates -/

theorem indexFold_eq_none (g : List Char) :
    ∀ (l : List (Nat × List Char)) (acc : Option Nat),
      indexFold g acc l = none ↔ acc = none ∧ ∀ p ∈ l, p.2 ≠ g
  | [], acc => by simp [indexFold]
  | p :: rest, acc => by
    rw [indexFold, indexFold_eq_none g rest]
    by_cases hp : p.2 = g
    · simp [hp]
    · simp [hp]

theorem INDEX_get_eq_none (words : List (List Char)) (g : List Char) :
    INDEX_get words g = none ↔ g ∉ words := by
  rw [INDEX_get, indexFold_eq_none]
  simp only [true_and]
  constructor
  · intro h hg
    have : g ∈ words.enum.map Prod.snd := by
      rw [List.enum_map_snd]
      exact hg
    obtain ⟨p, hp, hpg⟩ := List.mem_map.mp this
    exact h p hp hpg
  · intro h p hp hpg
    refine h ?_
    rw [← List.enum_map_snd words]
    exact hpg ▸ List.mem_map_of_mem Prod.snd hp

theorem applyPlayed_spec (words : List (List Char)) :
    ∀ (cs : List (List Char × Nat)) (C : List Nat),
      ((∃ e, applyPlayed words cs C = .error e) ↔ ∃ p ∈ cs, p.1 ∉ words)
      ∧ ((∀ p ∈ cs, p.1 ∈ words) → applyPlayed words cs C
          = .ok (C.filter (fun s => cs.all (fun p =>
              match INDEX_get words p.1 with
              | some gIdx => row words gIdx s == p.2
              | none => false))))
  | [], C => by
    refine ⟨by simp [applyPlayed], fun _ => ?_⟩
    simp [applyPlayed, List.filter_true]
  | (guess, code) :: rest, C => by
    cases hidx : INDEX_get words guess with
    | none =>
      have hnm : guess ∉ words := (INDEX_get_eq_none words guess).mp hidx
      constructor
      · rw [applyPlayed, hidx]
        simp only [List.mem_cons]
        constructor
        · intro _
          exact ⟨(guess, code), Or.inl rfl, hnm⟩
        · intro _
          exact ⟨"unknown word", rfl⟩
      · intro hall
        exact absurd (hall (guess, code) (List.mem_cons_self _ _)) hnm
    | some gIdx =>
      have hm : guess ∈ words := by
        by_contra hncontra
        rw [(INDEX_get_eq_none words guess).mpr hncontra] at hidx
        exact Option.noConfusion hidx
      obtain ⟨ih1, ih2⟩ := applyPlayed_spec words rest
        (C.filter (fun s => row words gIdx s == code))
      constructor
      · simp only [applyPlayed, hidx]
        rw [ih1]
        simp only [List.mem_cons]
        constructor
        · rintro ⟨p, hp, hpw⟩
          exact ⟨p, Or.inr hp, hpw⟩
        · rintro ⟨p, hp | hp, hpw⟩
          · rw [hp] at hpw
            exact absurd hm hpw
          · exact ⟨p, hp, hpw⟩
      · intro hall
        simp only [applyPlayed, hidx]
        rw [ih2 (fun p hp => hall p (List.mem_cons_of_mem _ hp))]
        refine congrArg Except.ok ?_
        rw [List.filter_filter]
        refine List.filter_congr fun s hs => ?_
        simp only [List.all_cons, hidx]
        rw [Bool.and_comm]

end WordleHelper

/-- C8: `filter_candidates` fails with an input error if and only if some
(guess, code) constraint references a guess word absent from the word list;
when every constraint guess is known it returns exactly the word indices
whose feedback code against each constraint's guess equals that constraint's
observed code and which, when banned letters are given, contain none of the
upper-cased banned letters. -/
theorem filter_candidates_spec (words : List (List Char)) (cs : List (List Char × Nat))
    (banned : List Char) :
    ((∃ e, WordleHelper.filter_candidates words cs banned = .error e)
      ↔ ∃ p ∈ cs, p.1 ∉ words)
    ∧ ((∀ p ∈ cs, p.1 ∈ words) →
        WordleHelper.filter_candidates words cs banned
          = .ok ((List.range words.length).filter (WordleHelper.keptByAll words cs banned))) := by
  obtain ⟨h1, h2⟩ := WordleHelper.applyPlayed_spec words cs (List.range words.length)
  constructor
  · rw [← h1]
    cases happ : WordleHelper.applyPlayed words cs (List.range words.length) with
    | error e => simp [WordleHelper.filter_candidates, happ]
    | ok C => simp [WordleHelper.filter_candidates, happ]
  · intro hall
    simp only [WordleHelper.filter_candidates, h2 hall]
    by_cases hb : banned = []
    · subst hb
      rw [if_neg (by simp)]
      refine congrArg Except.ok (List.filter_congr fun s hs => ?_)
      simp [WordleHelper.keptByAll]
    · rw [if_pos hb]
      refine congrArg Except.ok ?_
      rw [List.filter_filter]
      refine List.filter_congr fun s hs => ?_
      rw [WordleHelper.keptByAll]
      have hbe : banned.isEmpty = false := by
        cases banned
        · exact absurd rfl hb
        · rfl
      rw [hbe, Bool.false_or, Bool.and_comm]

/-- Witness for C8: a two-word list with one known played constraint; the
result is the filtered index range. -/
theorem filter_candidates_spec_witness :
    WordleHelper.filter_candidates
        [['A', 'A', 'A', 'A', 'A'], ['B', 'B', 'B', 'B', 'B']]
        [(['A', 'A', 'A', 'A', 'A'], 242)] []
      = .ok ((List.range
          ([['A', 'A', 'A', 'A', 'A'], ['B', 'B', 'B', 'B', 'B']] : List (List Char)).length).filter
          (WordleHelper.keptByAll [['A', 'A', 'A', 'A', 'A'], ['B', 'B', 'B', 'B', 'B']]
            [(['A', 'A', 'A', 'A', 'A'], 242)] [])) :=
  (filter_candidates_spec [['A', 'A', 'A', 'A', 'A'], ['B', 'B', 'B', 'B', 'B']]
    [(['A', 'A', 'A', 'A', 'A'], 242)] []).2 (by decide)

namespace WordleHelper

/-! ## Lemmas about the bucket dict of exp_size_one -/

theorem dlookup_dictIncr (d : List (Nat × Nat)) (c k : Nat) :
    dlookup (dictIncr d c) k = if k = c then dlookup d k + 1 else dlookup d k := by
  induction d with
  | nil =>
    simp only [dictIncr, dlookup]
    by_cases hk : k = c
    · subst hk
      simp
    · have hck : ¬c = k := fun h => hk h.symm
      simp [hk, hck]
  | cons p rest ih =>
    obtain ⟨k0, v0⟩ := p
    by_cases h0 : k0 = c
    · subst h0
      simp only [dictIncr, if_pos rfl, dlookup]
      by_cases hk : k0 = k
      · subst hk
        simp
      · have hkk : ¬k = k0 := fun h => hk h.symm
        simp [hk, hkk]
    · simp only [dictIncr, if_neg h0, dlookup]
      by_cases hk : k0 = k
      · subst hk
        simp [h0]
      · simp [hk, ih]

theorem keys_dictIncr (d : List (Nat × Nat)) (c : Nat) :
    (dictIncr d c).map Prod.fst
      = if c ∈ d.map Prod.fst then d.map Prod.fst else d.map Prod.fst ++ [c] := by
  induction d with
  | nil => simp [dictIncr]
  | cons p rest ih =>
    obtain ⟨k0, v0⟩ := p
    by_cases h0 : k0 = c
    · subst h0
      simp [dictIncr]
    · have h0c : ¬c = k0 := fun h => h0 h.symm
      simp only [dictIncr, if_neg h0, List.map_cons, ih, List.mem_cons]
      by_cases hc : c ∈ rest.map Prod.fst
      · simp [hc, h0c]
      · have hboth : ¬(c = k0 ∨ c ∈ rest.map Prod.fst) := by
          rintro (h | h)
          · exact h0c h
          · exact hc h
        simp [hc, hboth, h0c]

theorem mem_keys_dictIncr (d : List (Nat × Nat)) (c k : Nat) :
    k ∈ (dictIncr d c).map Prod.fst ↔ k ∈ d.map Prod.fst ∨ k = c := by
  rw [keys_dictIncr]
  by_cases hc : c ∈ d.map Prod.fst
  · rw [if_pos hc]
    constructor
    · exact Or.inl
    · rintro (h | h)
      · exact h
      · exact h ▸ hc
  · rw [if_neg hc]
    simp

theorem nodup_keys_dictIncr (d : List (Nat × Nat)) (c : Nat)
    (h : (d.map Prod.fst).Nodup) : ((dictIncr d c).map Prod.fst).Nodup := by
  rw [keys_dictIncr]
  by_cases hc : c ∈ d.map Prod.fst
  · rwa [if_pos hc]
  · rw [if_neg hc]
    simp [List.nodup_append, h, hc]

theorem valuesSum_dictIncr (d : List (Nat × Nat)) (c : Nat) :
    ((dictIncr d c).map Prod.snd).sum = (d.map Prod.snd).sum + 1 := by
  induction d with
  | nil => simp [dictIncr]
  | cons p rest ih =>
    obtain ⟨k0, v0⟩ := p
    by_cases h0 : k0 = c
    · subst h0
      simp [dictIncr]
      omega
    · simp [dictIncr, h0, ih]
      omega

theorem valuesPos_dictIncr (d : List (Nat × Nat)) (c : Nat)
    (h : ∀ kv ∈ d, 1 ≤ kv.2) : ∀ kv ∈ dictIncr d c, 1 ≤ kv.2 := by
  induction d with
  | nil =>
    intro kv hkv
    simp [dictIncr] at hkv
    simp [hkv]
  | cons p rest ih =>
    obtain ⟨k0, v0⟩ := p
    intro kv hkv
    by_cases h0 : k0 = c
    · subst h0
      rw [dictIncr, if_pos rfl] at hkv
      rcases List.mem_cons.mp hkv with hkv | hkv
      · subst hkv
        simp
      · exact h kv (List.mem_cons_of_mem _ hkv)
    · rw [dictIncr, if_neg h0] at hkv
      rcases List.mem_cons.mp hkv with hkv | hkv
      · subst hkv
        exact h (k0, v0) (List.mem_cons_self _ _)
      · exact ih (fun q hq => h q (List.mem_cons_of_mem _ hq)) kv hkv

theorem mem_dlookup (d : List (Nat × Nat)) (h : (d.map Prod.fst).Nodup) :
    ∀ kv ∈ d, dlookup d kv.1 = kv.2 := by
  induction d with
  | nil => simp
  | cons p rest ih =>
    obtain ⟨k0, v0⟩ := p
    simp only [List.map_cons, List.nodup_cons] at h
    intro kv hkv
    rcases List.mem_cons.mp hkv with hkv | hkv
    · subst hkv
      simp [dlookup]
    · rw [dlookup]
      have hne : ¬k0 = kv.1 := by
        intro heq
        exact h.1 (heq ▸ List.mem_map_of_mem Prod.fst hkv)
      rw [if_neg hne]
      exact ih h.2 kv hkv

theorem foldl_dlookup (M : List Nat) :
    ∀ (d : List (Nat × Nat)) (k : Nat),
      dlookup (M.foldl dictIncr d) k = dlookup d k + M.count k := by
  induction M with
  | nil => simp
  | cons m M ih =>
    intro d k
    rw [List.foldl_cons, ih, dlookup_dictIncr, List.count_cons]
    by_cases hk : k = m
    · subst hk
      simp
      omega
    · have hmk : ¬m = k := fun h => hk h.symm
      simp [hk, hmk]

theorem foldl_mem_keys (M : List Nat) :
    ∀ (d : List (Nat × Nat)) (k : Nat),
      k ∈ (M.foldl dictIncr d).map Prod.fst ↔ k ∈ d.map Prod.fst ∨ k ∈ M := by
  induction M with
  | nil => simp
  | cons m M ih =>
    intro d k
    rw [List.foldl_cons, ih, mem_keys_dictIncr]
    simp only [List.mem_cons]
    tauto

theorem foldl_nodup_keys (M : List Nat) :
    ∀ (d : List (Nat × Nat)), (d.map Prod.fst).Nodup →
      ((M.foldl dictIncr d).map Prod.fst).Nodup := by
  induction M with
  | nil => exact fun d h => h
  | cons m M ih =>
    intro d hd
    rw [List.foldl_cons]
    exact ih _ (nodup_keys_dictIncr d m hd)

theorem foldl_valuesSum (M : List Nat) :
    ∀ (d : List (Nat × Nat)),
      ((M.foldl dictIncr d).map Prod.snd).sum = (d.map Prod.snd).sum + M.length := by
  induction M with
  | nil => simp
  | cons m M ih =>
    intro d
    rw [List.foldl_cons, ih, valuesSum_dictIncr]
    simp
    omega

theorem foldl_valuesPos (M : List Nat) :
    ∀ (d : List (Nat × Nat)), (∀ kv ∈ d, 1 ≤ kv.2) →
      ∀ kv ∈ M.foldl dictIncr d, 1 ≤ kv.2 := by
  induction M with
  | nil => exact fun d h => h
  | cons m M ih =>
    intro d hd
    rw [List.foldl_cons]
    exact ih _ (valuesPos_dictIncr d m hd)

theorem sum_le_sum_sq (l : List Nat) (h : ∀ v ∈ l, 1 ≤ v) :
    l.sum ≤ (l.map (fun v => v * v)).sum := by
  induction l with
  | nil => simp
  | cons a l ih =>
    simp only [List.sum_cons, List.map_cons]
    have ha := h a (List.mem_cons_self _ _)
    have hl := ih (fun v hv => h v (List.mem_cons_of_mem _ hv))
    have haa : a ≤ a * a := Nat.le_mul_of_pos_left a ha
    omega

theorem sum_sq_le_sq_sum (l : List Nat) :
    (l.map (fun v => v * v)).sum ≤ l.sum * l.sum := by
  induction l with
  | nil => simp
  | cons a l ih =>
    simp only [List.sum_cons, List.map_cons]
    nlinarith [ih, Nat.zero_le a, Nat.zero_le l.sum]

theorem bucketDict_eq (words : List (List Char)) (g : Nat) (C : List Nat) :
    bucketDict words g C = (C.map (row words g)).foldl dictIncr [] := by
  rw [bucketDict, List.foldl_map]

theorem bucketTot_eq (M : List Nat) :
    ((M.foldl dictIncr []).map (fun kv => kv.2 * kv.2)).sum
      = M.toFinset.sum (fun k => M.count k * M.count k) := by
  set D := M.foldl dictIncr [] with hD
  have hnodup : (D.map Prod.fst).Nodup := foldl_nodup_keys M [] (by simp)
  have hval : ∀ kv ∈ D, kv.2 = M.count kv.1 := by
    intro kv hkv
    have h1 := mem_dlookup D hnodup kv hkv
    have h2 := foldl_dlookup M [] kv.1
    rw [← hD] at h2
    rw [h1] at h2
    simpa [dlookup] using h2
  have hmap : D.map (fun kv => kv.2 * kv.2)
      = D.map (fun kv => M.count kv.1 * M.count kv.1) := by
    refine List.map_congr_left fun kv hkv => ?_
    rw [hval kv hkv]
  rw [hmap]
  have hcomp : D.map (fun kv => M.count kv.1 * M.count kv.1)
      = (D.map Prod.fst).map (fun k => M.count k * M.count k) := by
    rw [List.map_map]
    rfl
  rw [hcomp, ← List.sum_toFinset _ hnodup]
  refine Finset.sum_congr ?_ (fun _ _ => rfl)
  ext k
  simp only [List.mem_toFinset]
  rw [foldl_mem_keys M [] k]
  simp

end WordleHelper

namespace WordleHelper

theorem exp_size_one_eq (words : List (List Char)) (g : Nat) (C : List Nat) (h : C ≠ []) :
    exp_size_one words g C
      = some ((((C.map (row words g)).toFinset.sum
          (fun k => (C.map (row words g)).count k * (C.map (row words g)).count k) : ℕ) : ℚ)
          / (C.length : ℚ)) := by
  have hlen : ¬C.length = 0 := fun hl => h (List.length_eq_zero.mp hl)
  simp only [exp_size_one, bucketDict_eq, bucketTot_eq]
  rw [if_neg hlen]

end WordleHelper

/-- C6: for every guess index and non-empty pool C, the depth-1 score of
`exp_size_one` equals the sum of squared feedback-bucket sizes divided by
the pool size, is invariant under permutation of the pool, and lies in the
interval from 1 to the pool size. -/
theorem exp_size_one_spec (words : List (List Char)) (g : Nat) (C : List Nat) (h : C ≠ []) :
    WordleHelper.exp_size_one words g C
      = some (((C.map (WordleHelper.row words g)).toFinset.sum
          (fun code => ((C.map (WordleHelper.row words g)).count code : ℚ)
            * ((C.map (WordleHelper.row words g)).count code : ℚ))) / (C.length : ℚ))
    ∧ (∀ C', C.Perm C' →
        WordleHelper.exp_size_one words g C' = WordleHelper.exp_size_one words g C)
    ∧ (∃ q, WordleHelper.exp_size_one words g C = some q ∧ 1 ≤ q ∧ q ≤ (C.length : ℚ)) := by
  have hlen : ¬C.length = 0 := fun hl => h (List.length_eq_zero.mp hl)
  refine ⟨?_, ?_, ?_⟩
  · rw [WordleHelper.exp_size_one_eq words g C h]
    congr 1
    push_cast
    rfl
  · intro C' hperm
    have h' : C' ≠ [] := by
      intro he
      exact h (List.Perm.eq_nil (he ▸ hperm))
    rw [WordleHelper.exp_size_one_eq words g C h, WordleHelper.exp_size_one_eq words g C' h']
    refine congrArg some ?_
    have hMp : (C.map (WordleHelper.row words g)).Perm (C'.map (WordleHelper.row words g)) :=
      hperm.map _
    have hfin : (C'.map (WordleHelper.row words g)).toFinset
        = (C.map (WordleHelper.row words g)).toFinset := by
      ext k
      simp only [List.mem_toFinset]
      exact hMp.mem_iff.symm
    rw [hfin, ← hperm.length_eq]
    refine congrArg₂ (fun a b => a / b) ?_ rfl
    refine congrArg Nat.cast ?_
    refine Finset.sum_congr rfl fun k _ => ?_
    rw [← hMp.count_eq k]
  · set M := C.map (WordleHelper.row words g) with hM
    set D := M.foldl WordleHelper.dictIncr [] with hD
    set totN : Nat := (D.map (fun kv => kv.2 * kv.2)).sum with htot
    refine ⟨(totN : ℚ) / (C.length : ℚ), ?_, ?_, ?_⟩
    · simp only [WordleHelper.exp_size_one, WordleHelper.bucketDict_eq]
      rw [if_neg hlen]
    · have hvsum : (D.map Prod.snd).sum = C.length := by
        rw [hD, WordleHelper.foldl_valuesSum M []]
        simp [hM]
      have hvpos : ∀ v ∈ D.map Prod.snd, 1 ≤ v := by
        intro v hv
        obtain ⟨kv, hkv, rfl⟩ := List.mem_map.mp hv
        exact WordleHelper.foldl_valuesPos M [] (by simp) kv hkv
      have hmap : totN = ((D.map Prod.snd).map (fun v => v * v)).sum := by
        rw [htot, List.map_map]
        rfl
      have hge : C.length ≤ totN := by
        rw [hmap, ← hvsum]
        exact WordleHelper.sum_le_sum_sq _ hvpos
      rw [le_div_iff₀ (by positivity)]
      calc (1 : ℚ) * (C.length : ℚ) = (C.length : ℚ) := one_mul _
        _ ≤ (totN : ℚ) := by exact_mod_cast hge
    · have hvsum : (D.map Prod.snd).sum = C.length := by
        rw [hD, WordleHelper.foldl_valuesSum M []]
        simp [hM]
      have hmap : totN = ((D.map Prod.snd).map (fun v => v * v)).sum := by
        rw [htot, List.map_map]
        rfl
      have hle : totN ≤ C.length * C.length := by
        rw [hmap, ← hvsum]
        exact WordleHelper.sum_sq_le_sq_sum _
      rw [div_le_iff₀ (by positivity)]
      exact_mod_cast hle

/-- Witness for C6 at a concrete two-word list and pool of both indices. -/
theorem exp_size_one_spec_witness :
    WordleHelper.exp_size_one [['A', 'A', 'A', 'A', 'A'], ['B', 'B', 'B', 'B', 'B']] 0 [0, 1]
      = some (((([0, 1].map (WordleHelper.row
            [['A', 'A', 'A', 'A', 'A'], ['B', 'B', 'B', 'B', 'B']] 0)).toFinset.sum
          (fun code => (([0, 1].map (WordleHelper.row
              [['A', 'A', 'A', 'A', 'A'], ['B', 'B', 'B', 'B', 'B']] 0)).count code : ℚ)
            * (([0, 1].map (WordleHelper.row
              [['A', 'A', 'A', 'A', 'A'], ['B', 'B', 'B', 'B', 'B']] 0)).count code : ℚ))))
          / (([0, 1] : List Nat).length : ℚ)) :=
  (exp_size_one_spec [['A', 'A', 'A', 'A', 'A'], ['B', 'B', 'B', 'B', 'B']] 0 [0, 1]
    (by decide)).1

namespace WordleHelper

/-! ## Lemmas about recommend and its heap ordering -/

instance : IsTrans (ℚ × Nat) heapLe := by
  refine ⟨fun a b c hab hbc => ?_⟩
  rcases hab with h1 | ⟨h1, h1'⟩ <;> rcases hbc with h2 | ⟨h2, h2'⟩
  · exact Or.inl (h1.trans h2)
  · exact Or.inl (lt_of_lt_of_le h1 h2.le)
  · exact Or.inl (lt_of_le_of_lt h1.le h2)
  · exact Or.inr ⟨h1.trans h2, h1'.trans h2'⟩

instance : IsTotal (ℚ × Nat) heapLe := by
  refine ⟨fun a b => ?_⟩
  rcases lt_trichotomy a.1 b.1 with h | h | h
  · exact Or.inl (Or.inl h)
  · rcases Nat.le_total a.2 b.2 with h2 | h2
    · exact Or.inl (Or.inr ⟨h, h2⟩)
    · exact Or.inr (Or.inr ⟨h.symm, h2⟩)
  · exact Or.inr (Or.inl h)

theorem score_depth_one (words : List (List Char)) (g : Nat) (C : List Nat)
    (sample_k : Option Nat) (glob : List Nat → Nat → List Nat) :
    score_depth words g C 1 sample_k glob = exp_size_one words g C := by
  rw [score_depth, if_pos rfl]

theorem foldl_orderedInsert_sorted :
    ∀ (l : List (ℚ × Nat)) (h : List (ℚ × Nat)), List.Sorted heapLe h →
      List.Sorted heapLe (l.foldl (fun acc e => List.orderedInsert heapLe e acc) h)
  | [], _, hs => hs
  | e :: l, h, hs =>
    foldl_orderedInsert_sorted l (List.orderedInsert heapLe e h) (hs.orderedInsert e h)

end WordleHelper

/-- C9 (amended): with the module-level random source held fixed the engine
is a pure function, and at depth 1 (where the injected rng drives all
sampling) the output is entirely independent of the module-level source; the
popped heap is sorted ascending by (negated score, word index), so the output
scores are non-increasing with score ties broken by ascending word-list index
(the original pool order for the index pools recommend receives). -/
theorem recommend_deterministic (words : List (List Char)) (C : List Nat)
    (sample_k : Option Nat) (top_n : Nat) (inj : List Nat → Nat → List Nat) :
    (∀ glob1 glob2,
        WordleHelper.recommend words C 1 sample_k top_n inj glob1
          = WordleHelper.recommend words C 1 sample_k top_n inj glob2)
    ∧ (∀ depth glob heap,
        WordleHelper.recommend_heap words C depth sample_k inj glob = some heap →
          List.Sorted WordleHelper.heapLe heap)
    ∧ (∀ depth glob out,
        WordleHelper.recommend words C depth sample_k top_n inj glob = some out →
          List.Sorted (fun a b => b.2 ≤ a.2) out) := by
  have hsorted : ∀ depth glob heap,
      WordleHelper.recommend_heap words C depth sample_k inj glob = some heap →
        List.Sorted WordleHelper.heapLe heap := by
    intro depth glob heap hh
    rw [WordleHelper.recommend_heap] at hh
    cases hm : (WordleHelper.sampleIfNeeded inj sample_k C).mapM
        (fun g => (WordleHelper.score_depth words g C depth sample_k glob).map
          (fun sc => (-sc, g))) with
    | none =>
      rw [hm] at hh
      exact Option.noConfusion hh
    | some entries =>
      rw [hm] at hh
      have : entries.foldl (fun h e => List.orderedInsert WordleHelper.heapLe e h) [] = heap :=
        Option.some.inj hh
      rw [← this]
      exact WordleHelper.foldl_orderedInsert_sorted entries [] List.sorted_nil
  refine ⟨?_, hsorted, ?_⟩
  · intro glob1 glob2
    simp only [WordleHelper.recommend, WordleHelper.recommend_heap,
      WordleHelper.score_depth_one]
  · intro depth glob out hout
    rw [WordleHelper.recommend] at hout
    cases hh : WordleHelper.recommend_heap words C depth sample_k inj glob with
    | none =>
      rw [hh] at hout
      exact Option.noConfusion hout
    | some heap =>
      rw [hh] at hout
      have hout2 : (heap.take (min top_n heap.length)).map
          (fun p => (words.getD p.2 [], -p.1)) = out := Option.some.inj hout
      rw [← hout2]
      have hs : List.Pairwise WordleHelper.heapLe (heap.take (min top_n heap.length)) :=
        List.Pairwise.sublist (List.take_sublist _ _) (hsorted depth glob heap hh)
      refine List.Pairwise.map _ ?_ hs
      intro a b hab
      rcases hab with h | ⟨h, _⟩
      · exact neg_le_neg h.le
      · exact neg_le_neg h.le

unseal Rat.mul Rat.inv Rat.add Rat.sub in
/-- Witness for C9's sortedness conjunct at a concrete run. -/
theorem recommend_deterministic_witness :
    List.Sorted (fun a b => b.2 ≤ a.2)
      [((['A', 'A', 'A', 'A', 'A'] : List Char), (1 : ℚ)), (['B', 'B', 'B', 'B', 'B'], 1)] :=
  (recommend_deterministic [['A', 'A', 'A', 'A', 'A'], ['B', 'B', 'B', 'B', 'B']] [0, 1]
    none 20 (fun _ _ => [])).2.2 1 (fun _ _ => [])
    [(['A', 'A', 'A', 'A', 'A'], 1), (['B', 'B', 'B', 'B', 'B'], 1)] (by decide)

unseal Rat.mul Rat.inv Rat.add Rat.sub in
/-- C9 counterexample: at depth 2 with a sampling bound, two runs whose
injected rng is identical but whose module-level random source differs give
different (word, score) lists: the depth-2 bucket sampling in score_depth is
driven by the module-level random source, not by the injected one.
The reducibility override only lets elaboration evaluate the rational
arithmetic; the kernel checks the proof as usual. -/
theorem recommend_global_random_counterexample :
    WordleHelper.recommend
        [['D', 'D', 'D', 'D', 'D'], ['B', 'B', 'B', 'B', 'B'],
         ['C', 'A', 'C', 'C', 'C'], ['C', 'C', 'C', 'C', 'A']]
        [0, 1, 2, 3] 2 (some 1) 20 (fun _ _ => [0]) (fun _ _ => [1])
      ≠ WordleHelper.recommend
        [['D', 'D', 'D', 'D', 'D'], ['B', 'B', 'B', 'B', 'B'],
         ['C', 'A', 'C', 'C', 'C'], ['C', 'C', 'C', 'C', 'A']]
        [0, 1, 2, 3] 2 (some 1) 20 (fun _ _ => [0]) (fun _ _ => [2]) := by
  decide

/-- Witness for C3's amended statement at a concrete empty state and pool. -/
theorem solver_score_spec_witness :
    WordleHelper.solver_guess_score [] []
        [['a', 'b', 'c', 'd', 'e'], ['f', 'g', 'h', 'i', 'j']] ['a', 'a', 'a', 'a', 'a']
      = ([['a', 'b', 'c', 'd', 'e'], ['f', 'g', 'h', 'i', 'j']].filter
          (fun t => decide (∀ ch ∈ (['a', 'a', 'a', 'a', 'a'] : List Char),
            ch ∉ ([] : List Char) → ch ∉ ([] : List Char) → ch ∉ t))).length :=
  (solver_score_spec [] [] [['a', 'b', 'c', 'd', 'e'], ['f', 'g', 'h', 'i', 'j']]
    ['a', 'a', 'a', 'a', 'a'] 20).1
